import Mathlib

/-!
Verification of the persistent copy-on-write trie (`src/primer/trie.cpp`).

The node data model (`TrieNode` / `TrieNodeWithValue`, their `children_`
map, the `is_value_node_` flag and shallow `Clone`) lives in the header
`primer/trie.h`, which is not part of the provided sources; it is modelled
from the spec (sections 3 and 4.1).  The three algorithms `Trie::Get`,
`Trie::Put` and `Trie::Remove` are translated directly from `trie.cpp`.

Keys are `List Char` (the C++ `std::string_view`).  The type-erased value
payload of a Value Node is modelled as a runtime type tag (`ty : Nat`,
standing for the C++ `typeid` of `T`) together with a numeric payload:
`dynamic_pointer_cast<const TrieNodeWithValue<T>>` succeeds exactly when
the node is a Value Node whose stored tag equals the tag requested by
`Get`.  Shared pointers become plain values (the structure is immutable,
so sharing is unobservable); `Clone`, a shallow copy in C++, is the
identity on values.
-/

set_option maxHeartbeats 1000000

namespace BusTub

/-- Modelled from the spec: a trie node is a mapping from single
characters to child nodes, and is either a plain node
(`is_value_node_ = false`) or a Value Node additionally carrying a
type-erased payload, modelled as a type tag `ty` plus payload `v`
(spec section 3, "Node" / "Value Node").  The variant determines the
`is_value_node_` flag, as the section-3 invariant requires. -/
inductive TrieNode where
  | plain (children : List (Char × TrieNode))
  | value (children : List (Char × TrieNode)) (ty : Nat) (v : Nat)

/-- Modelled from the spec: the `children_` mapping of a node. -/
def TrieNode.children_ : TrieNode → List (Char × TrieNode)
  | .plain cs => cs
  | .value cs _ _ => cs

/-- Modelled from the spec: the `is_value_node_` flag, true exactly on
the Value Node variant. -/
def TrieNode.is_value_node_ : TrieNode → Bool
  | .plain _ => false
  | .value _ _ _ => true

/-- Modelled from the spec: `Clone` produces a node with the same
children mapping and the same value flag/payload (a shallow copy); on
immutable values it is the identity. -/
def TrieNode.Clone (n : TrieNode) : TrieNode := n

/-- Rebuild a node with the given children mapping, keeping its variant
and payload.  This models in-place assignment to the `children_` field
of a freshly cloned (hence unshared) node in the C++ code. -/
def TrieNode.withChildren : TrieNode → List (Char × TrieNode) → TrieNode
  | .plain _, cs => .plain cs
  | .value _ ty v, cs => .value cs ty v

/-- `children_.find(ch)`: lookup in the `std::map<char, ...>` of
children (keys are unique in a `std::map`; the association list is
searched front to back). -/
def mapFind : List (Char × TrieNode) → Char → Option TrieNode
  | [], _ => none
  | (c, n) :: rest, ch => if c = ch then some n else mapFind rest ch

/-- `children_[ch] = node`: insert-or-assign in the children map. -/
def mapSet : List (Char × TrieNode) → Char → TrieNode → List (Char × TrieNode)
  | [], ch, nn => [(ch, nn)]
  | (c, n) :: rest, ch, nn =>
    if c = ch then (ch, nn) :: rest else (c, n) :: mapSet rest ch nn

/-- `children_.erase(ch)`: erase a key from the children map. -/
def mapErase : List (Char × TrieNode) → Char → List (Char × TrieNode)
  | [], _ => []
  | (c, n) :: rest, ch => if c = ch then rest else (c, n) :: mapErase rest ch

/-- Modelled from the spec: a `Trie` is an immutable handle to an
optional root node (spec section 3, "Trie"). -/
structure Trie where
  root_ : Option TrieNode

/-- The walking loop of `Trie::Get`: descend from `node` along `key`,
returning the node reached, or `none` as soon as a character is absent
from the current children map. -/
def getNode : TrieNode → List Char → Option TrieNode
  | n, [] => some n
  | n, ch :: rest =>
    match mapFind n.children_ ch with
    | none => none
    | some child => getNode child rest

/-- The `dynamic_pointer_cast<const TrieNodeWithValue<T>>` step of
`Trie::Get`: succeeds with the payload exactly when the node is a Value
Node whose stored type tag is the requested one. -/
def castValue (n : TrieNode) (ty : Nat) : Option Nat :=
  match n with
  | .value _ ty2 v => if ty2 = ty then some v else none
  | .plain _ => none

/-- `Trie::Get<T>(key)` from `trie.cpp`: `none` models the `nullptr`
("not found") result. -/
def Trie.Get (t : Trie) (key : List Char) (ty : Nat) : Option Nat :=
  match t.root_ with
  | none => none
  | some root =>
    match getNode root key with
    | none => none
    | some n => castValue n ty

/-- The path-rewriting loop of `Trie::Put` for a non-empty key
`ch :: rest`, acting on the already-cloned `node`: middle characters
clone (or freshly create) the child and relink it; at the final
character a new Value Node is installed, reusing the existing child's
children mapping when a child is present. -/
def putNode (node : TrieNode) (ch : Char) (rest : List Char) (ty : Nat) (v : Nat) : TrieNode :=
  match rest with
  | [] =>
    match mapFind node.children_ ch with
    | some child =>
      node.withChildren (mapSet node.children_ ch (.value child.children_ ty v))
    | none =>
      node.withChildren (mapSet node.children_ ch (.value [] ty v))
  | next :: rest2 =>
    let nnode := match mapFind node.children_ ch with
      | none => TrieNode.plain []
      | some c => c.Clone
    node.withChildren (mapSet node.children_ ch (putNode nnode next rest2 ty v))

/-- `Trie::Put<T>(key, value)` from `trie.cpp`. -/
def Trie.Put (t : Trie) (key : List Char) (ty : Nat) (v : Nat) : Trie :=
  match key with
  | [] =>
    match t.root_ with
    | none => ⟨some (.value [] ty v)⟩
    | some root => ⟨some (.value root.children_ ty v)⟩
  | ch :: rest =>
    let root := match t.root_ with
      | none => TrieNode.plain []
      | some r => r.Clone
    ⟨some (putNode root ch rest ty v)⟩

/-- The `remove_node` recursive lambda of `Trie::Remove`, acting on the
already-cloned `node`, with current character `ch` and remaining
characters `rest`.  Returns `none` where the C++ returns a null pointer
(the node pruned away). -/
def removeNode (node : TrieNode) (ch : Char) (rest : List Char) : Option TrieNode :=
  match mapFind node.children_ ch with
  | none => some node
  | some child =>
    match rest with
    | [] =>
      if child.is_value_node_ = false then some node
      else
        let newChildren :=
          if child.children_.isEmpty then mapErase node.children_ ch
          else mapSet node.children_ ch (.plain child.children_)
        let node2 := node.withChildren newChildren
        if node2.children_.isEmpty && !node2.is_value_node_ then none else some node2
    | next :: rest2 =>
      match removeNode child.Clone next rest2 with
      | some nc =>
        let node2 := node.withChildren (mapSet node.children_ ch nc)
        if node2.children_.isEmpty && !node2.is_value_node_ then none else some node2
      | none =>
        let node2 := node.withChildren (mapErase node.children_ ch)
        if node2.children_.isEmpty && !node2.is_value_node_ then none else some node2

/-- `Trie::Remove(key)` from `trie.cpp`. -/
def Trie.Remove (t : Trie) (key : List Char) : Trie :=
  match t.root_ with
  | none => ⟨none⟩
  | some root =>
    match key with
    | [] =>
      if root.is_value_node_ then
        if root.children_.isEmpty then ⟨none⟩
        else ⟨some (.plain root.children_)⟩
      else ⟨some root.Clone⟩
    | ch :: rest => ⟨removeNode root.Clone ch rest⟩

/-- A node that is allowed to exist below the root by the section-3
invariant: it has a child or terminates a value (it is not a "dangling
empty node"). -/
def TrieNode.good (n : TrieNode) : Bool :=
  !n.children_.isEmpty || n.is_value_node_

mutual

/-- Every strict descendant of `n` is `good` (the section-3 structural
invariant, which exempts the root itself). -/
def goodBelow : TrieNode → Bool
  | .plain cs => goodChildren cs
  | .value cs _ _ => goodChildren cs

/-- Every node of the children list is `good`, recursively. -/
def goodChildren : List (Char × TrieNode) → Bool
  | [] => true
  | (_, c) :: rest => (c.good && goodBelow c) && goodChildren rest

end

/-- The section-3 structural invariant of a trie: every reachable node
other than the root has a child or a value. -/
def Trie.invariant3 (t : Trie) : Bool :=
  match t.root_ with
  | none => true
  | some root => goodBelow root

/-- The root, when present, has a child or a value. -/
def Trie.rootGood (t : Trie) : Bool :=
  match t.root_ with
  | none => true
  | some root => root.good

/-- Key occurrence in a children list. -/
def hasKey (cs : List (Char × TrieNode)) (ch : Char) : Bool :=
  (mapFind cs ch).isSome

mutual

/-- Well-formedness inherited from `std::map`: at every node the
children list binds each character at most once. -/
def WF : TrieNode → Bool
  | .plain cs => WFChildren cs
  | .value cs _ _ => WFChildren cs

/-- Children list with pairwise-distinct keys, recursively well-formed. -/
def WFChildren : List (Char × TrieNode) → Bool
  | [] => true
  | (c, n) :: rest => (!hasKey rest c && WF n) && WFChildren rest

end

/-- Well-formedness of a trie: the root, when present, is well-formed. -/
def Trie.WFT (t : Trie) : Bool :=
  match t.root_ with
  | none => true
  | some root => WF root

/-- The key has a stored value in the trie: the walk reaches a node and
that node is a Value Node. -/
def Trie.hasValueAt (t : Trie) (key : List Char) : Bool :=
  match t.root_ with
  | none => false
  | some root =>
    match getNode root key with
    | none => false
    | some n => n.is_value_node_

/-- Tries constructible from the default-constructed empty trie by the
two mutating operations. -/
inductive Reachable : Trie → Prop where
  | empty : Reachable ⟨none⟩
  | put (t : Trie) (k : List Char) (ty v : Nat) :
      Reachable t → Reachable (t.Put k ty v)
  | remove (t : Trie) (k : List Char) :
      Reachable t → Reachable (t.Remove k)

/-- Node-level lookup: the tail of `Trie::Get` once a root is in hand. -/
def lookupVal (n : TrieNode) (key : List Char) (ty : Nat) : Option Nat :=
  match getNode n key with
  | none => none
  | some m => castValue m ty

/-- The spec's example scenario, putting "cat", "car", "cats" (tag 0
standing for `int`). -/
def exampleTrie3 : Trie :=
  (((⟨none⟩ : Trie).Put ['c','a','t'] 0 1).Put ['c','a','r'] 0 2).Put ['c','a','t','s'] 0 3

/-- The example scenario after the further `Remove("cat")`. -/
def exampleTrie4 : Trie := exampleTrie3.Remove ['c','a','t']

@[simp]
theorem children_withChildren (n : TrieNode) (cs : List (Char × TrieNode)) :
    (n.withChildren cs).children_ = cs := by
  cases n <;> rfl

@[simp]
theorem is_value_withChildren (n : TrieNode) (cs : List (Char × TrieNode)) :
    (n.withChildren cs).is_value_node_ = n.is_value_node_ := by
  cases n <;> rfl

@[simp]
theorem castValue_withChildren (n : TrieNode) (cs : List (Char × TrieNode)) (ty : Nat) :
    castValue (n.withChildren cs) ty = castValue n ty := by
  cases n <;> rfl

@[simp]
theorem clone_eq (n : TrieNode) : n.Clone = n := rfl

@[simp]
theorem children_plain (cs : List (Char × TrieNode)) : (TrieNode.plain cs).children_ = cs := rfl

@[simp]
theorem children_value (cs : List (Char × TrieNode)) (ty v : Nat) :
    (TrieNode.value cs ty v).children_ = cs := rfl

@[simp]
theorem is_value_plain (cs : List (Char × TrieNode)) :
    (TrieNode.plain cs).is_value_node_ = false := rfl

@[simp]
theorem is_value_value (cs : List (Char × TrieNode)) (ty v : Nat) :
    (TrieNode.value cs ty v).is_value_node_ = true := rfl

@[simp]
theorem mapFind_mapSet_self (cs : List (Char × TrieNode)) (ch : Char) (x : TrieNode) :
    mapFind (mapSet cs ch x) ch = some x := by
  induction cs with
  | nil => simp [mapSet, mapFind]
  | cons p rest ih =>
    obtain ⟨c, n⟩ := p
    by_cases h : c = ch <;> simp [mapSet, mapFind, h, ih]

theorem mapFind_mapSet_other (cs : List (Char × TrieNode)) (ch c : Char) (x : TrieNode)
    (h : c ≠ ch) : mapFind (mapSet cs ch x) c = mapFind cs c := by
  induction cs with
  | nil => simp [mapSet, mapFind, Ne.symm h]
  | cons p rest ih =>
    obtain ⟨c0, n⟩ := p
    by_cases h0 : c0 = ch
    · subst h0
      simp [mapSet, mapFind, Ne.symm h]
    · simp [mapSet, mapFind, h0, ih]

theorem mapFind_mapErase_other (cs : List (Char × TrieNode)) (ch c : Char)
    (h : c ≠ ch) : mapFind (mapErase cs ch) c = mapFind cs c := by
  induction cs with
  | nil => simp [mapErase]
  | cons p rest ih =>
    obtain ⟨c0, n⟩ := p
    by_cases h0 : c0 = ch
    · subst h0
      simp [mapErase, mapFind, Ne.symm h]
    · simp [mapErase, mapFind, h0, ih]

theorem mapSet_ne_nil (cs : List (Char × TrieNode)) (ch : Char) (x : TrieNode) :
    (mapSet cs ch x).isEmpty = false := by
  cases cs with
  | nil => rfl
  | cons p rest =>
    obtain ⟨c, n⟩ := p
    by_cases h : c = ch <;> simp [mapSet, h]

theorem mapFind_isSome_nonempty (cs : List (Char × TrieNode)) (ch : Char) (c : TrieNode)
    (h : mapFind cs ch = some c) : cs.isEmpty = false := by
  cases cs with
  | nil => simp [mapFind] at h
  | cons p rest => rfl

theorem mapSet_self_eq (cs : List (Char × TrieNode)) (ch : Char) (c : TrieNode)
    (h : mapFind cs ch = some c) : mapSet cs ch c = cs := by
  induction cs with
  | nil => simp [mapFind] at h
  | cons p rest ih =>
    obtain ⟨c0, n⟩ := p
    by_cases h0 : c0 = ch
    · subst h0
      simp [mapFind] at h
      simp [mapSet, h]
    · simp [mapFind, h0] at h
      simp [mapSet, h0, ih h]

@[simp]
theorem lookupVal_nil (n : TrieNode) (ty : Nat) : lookupVal n [] ty = castValue n ty := rfl

theorem lookupVal_cons (n : TrieNode) (ch : Char) (rest : List Char) (ty : Nat) :
    lookupVal n (ch :: rest) ty =
      match mapFind n.children_ ch with
      | none => none
      | some c => lookupVal c rest ty := by
  cases h : mapFind n.children_ ch <;> simp [lookupVal, getNode, h]

@[simp]
theorem get_some (n : TrieNode) (key : List Char) (ty : Nat) :
    Trie.Get ⟨some n⟩ key ty = lookupVal n key ty := rfl

@[simp]
theorem get_none (key : List Char) (ty : Nat) : Trie.Get ⟨none⟩ key ty = none := rfl

theorem putNode_lookup_self (rest : List Char) (ch : Char) (node : TrieNode) (ty v : Nat) :
    lookupVal (putNode node ch rest ty v) (ch :: rest) ty = some v := by
  induction rest generalizing node ch with
  | nil =>
    cases h : mapFind node.children_ ch with
    | some child => simp [putNode, h, lookupVal_cons, castValue]
    | none => simp [putNode, h, lookupVal_cons, castValue]
  | cons next rest2 ih =>
    cases h : mapFind node.children_ ch with
    | some child => simp [putNode, h, lookupVal_cons, ih]
    | none => simp [putNode, h, lookupVal_cons, ih]

/-- C1: for every trie, every key (the empty key included) and every
value with its type tag, `Put` followed by `Get` at the same key and
tag returns exactly the stored value, never "not found". -/
theorem put_get_roundtrip (t : Trie) (key : List Char) (ty v : Nat) :
    (t.Put key ty v).Get key ty = some v := by
  obtain ⟨root⟩ := t
  cases key with
  | nil =>
    cases root with
    | none => simp [Trie.Put, lookupVal, getNode, castValue]
    | some r => simp [Trie.Put, lookupVal, getNode, castValue]
  | cons ch rest =>
    cases root with
    | none => simpa [Trie.Put] using putNode_lookup_self rest ch (.plain []) ty v
    | some r => simpa [Trie.Put] using putNode_lookup_self rest ch r ty v

theorem castValue_putNode (rest : List Char) (ch : Char) (node : TrieNode) (ty v ty2 : Nat) :
    castValue (putNode node ch rest ty v) ty2 = castValue node ty2 := by
  cases rest with
  | nil => cases h : mapFind node.children_ ch <;> simp [putNode, h]
  | cons next rest2 => cases h : mapFind node.children_ ch <;> simp [putNode, h]

theorem lookupVal_plain_nil (key : List Char) (ty : Nat) :
    lookupVal (.plain []) key ty = none := by
  cases key <;> simp [lookupVal_cons, castValue, mapFind]

theorem putNode_lookup_other (rest : List Char) (ch : Char) (node : TrieNode) (ty v : Nat)
    (k2 : List Char) (ty2 : Nat) (h : k2 ≠ ch :: rest) :
    lookupVal (putNode node ch rest ty v) k2 ty2 = lookupVal node k2 ty2 := by
  induction rest generalizing node ch k2 with
  | nil =>
    cases k2 with
    | nil => simp [castValue_putNode]
    | cons c k2t =>
      by_cases hc : c = ch
      · subst hc
        have ht : k2t ≠ [] := by
          intro he
          exact h (by rw [he])
        obtain ⟨d, k2tt, rfl⟩ : ∃ d k2tt, k2t = d :: k2tt := by
          cases k2t with
          | nil => exact absurd rfl ht
          | cons d k2tt => exact ⟨d, k2tt, rfl⟩
        cases hf : mapFind node.children_ c with
        | some child =>
          simp only [putNode, hf]
          rw [lookupVal_cons, lookupVal_cons]
          simp only [children_withChildren, mapFind_mapSet_self, hf]
          rw [lookupVal_cons, lookupVal_cons]
          rfl
        | none =>
          simp only [putNode, hf]
          rw [lookupVal_cons, lookupVal_cons]
          simp only [children_withChildren, mapFind_mapSet_self, hf]
          rfl
      · cases hf : mapFind node.children_ ch with
        | some child =>
          simp only [putNode, hf]
          rw [lookupVal_cons, lookupVal_cons]
          simp only [children_withChildren]
          rw [mapFind_mapSet_other _ _ _ _ hc]
        | none =>
          simp only [putNode, hf]
          rw [lookupVal_cons, lookupVal_cons]
          simp only [children_withChildren]
          rw [mapFind_mapSet_other _ _ _ _ hc]
  | cons next rest2 ih =>
    cases k2 with
    | nil => simp [castValue_putNode]
    | cons c k2t =>
      by_cases hc : c = ch
      · subst hc
        have ht : k2t ≠ next :: rest2 := by
          intro he
          exact h (by rw [he])
        cases hf : mapFind node.children_ c with
        | some child =>
          simp only [putNode, hf, clone_eq]
          rw [lookupVal_cons, lookupVal_cons]
          simp only [children_withChildren, mapFind_mapSet_self, hf]
          exact ih next child k2t ht
        | none =>
          simp only [putNode, hf, clone_eq]
          rw [lookupVal_cons, lookupVal_cons]
          simp only [children_withChildren, mapFind_mapSet_self, hf]
          rw [ih next (.plain []) k2t ht]
          exact lookupVal_plain_nil k2t ty2
      · cases hf : mapFind node.children_ ch with
        | some child =>
          simp only [putNode, hf, clone_eq]
          rw [lookupVal_cons, lookupVal_cons]
          simp only [children_withChildren]
          rw [mapFind_mapSet_other _ _ _ _ hc]
        | none =>
          simp only [putNode, hf, clone_eq]
          rw [lookupVal_cons, lookupVal_cons]
          simp only [children_withChildren]
          rw [mapFind_mapSet_other _ _ _ _ hc]

/-- C2: `Put` leaves every other key untouched — after `t2 = t.Put k ty v`,
every key `k2` different from `k` yields, at every requested type tag,
the same `Get` result on `t2` as on `t`; in particular a key `k2` below
`k` keeps its value when the value at `k` is overwritten. -/
theorem put_isolation (t : Trie) (k : List Char) (ty v : Nat) (k2 : List Char) (ty2 : Nat)
    (h : k2 ≠ k) : (t.Put k ty v).Get k2 ty2 = t.Get k2 ty2 := by
  obtain ⟨root⟩ := t
  cases k with
  | nil =>
    obtain ⟨c, k2t, rfl⟩ : ∃ c k2t, k2 = c :: k2t := by
      cases k2 with
      | nil => exact absurd rfl h
      | cons c k2t => exact ⟨c, k2t, rfl⟩
    cases root with
    | none => simp [Trie.Put, lookupVal_cons, TrieNode.children_, mapFind]
    | some r =>
      simp [Trie.Put, lookupVal_cons, TrieNode.children_]
  | cons ch rest =>
    cases root with
    | none =>
      simp [Trie.Put, putNode_lookup_other rest ch _ ty v k2 ty2 h, lookupVal_plain_nil]
    | some r =>
      simp [Trie.Put, putNode_lookup_other rest ch r ty v k2 ty2 h]

/-- C2 witness: putting at key "a" on the empty trie leaves the lookup
of key "b" unchanged. -/
theorem put_isolation_witness :
    (Trie.Put ⟨none⟩ ['a'] 0 1).Get ['b'] 0 = Trie.Get ⟨none⟩ ['b'] 0 :=
  put_isolation ⟨none⟩ ['a'] 0 1 ['b'] 0 (by decide)

/-- C4: when the node reached by `key` is a Value Node whose stored
type tag `ty1` differs from the requested tag `ty2`, or is not a Value
Node at all, `Get` at tag `ty2` returns "not found". -/
theorem get_type_mismatch (t : Trie) (k : List Char) (root n : TrieNode)
    (cs : List (Char × TrieNode)) (ty1 ty2 v : Nat)
    (hroot : t.root_ = some root) (hnode : getNode root k = some n)
    (h : (n = TrieNode.value cs ty1 v ∧ ty2 ≠ ty1) ∨ n.is_value_node_ = false) :
    t.Get k ty2 = none := by
  obtain ⟨r⟩ := t
  simp only [Trie.root_] at hroot
  subst hroot
  rw [get_some]
  rcases h with ⟨hn, hne⟩ | hflag
  · subst hn
    simp [lookupVal, hnode, castValue, Ne.symm hne]
  · cases n with
    | plain cs2 => simp [lookupVal, hnode, castValue]
    | value cs2 ty0 v0 => simp [TrieNode.is_value_node_] at hflag

/-- C4 witness: a trie storing tag 0 at the empty key, queried at
tag 1, answers "not found". -/
theorem get_type_mismatch_witness :
    Trie.Get ⟨some (.value [] 0 1)⟩ [] 1 = none :=
  get_type_mismatch ⟨some (.value [] 0 1)⟩ [] (.value [] 0 1) (.value [] 0 1) [] 0 1 1
    rfl rfl (Or.inl ⟨rfl, by decide⟩)

/-- C5: the spec's example scenario: after putting "cat" ↦ 1,
"car" ↦ 2, "cats" ↦ 3 starting from the empty trie, the three keys read
back their values and "ca" reads nothing; after removing "cat", "cat"
reads nothing while "cats" and "car" are unaffected. -/
theorem example_scenario :
    exampleTrie3.Get ['c','a','t'] 0 = some 1 ∧
    exampleTrie3.Get ['c','a','r'] 0 = some 2 ∧
    exampleTrie3.Get ['c','a','t','s'] 0 = some 3 ∧
    exampleTrie3.Get ['c','a'] 0 = none ∧
    exampleTrie4.Get ['c','a','t'] 0 = none ∧
    exampleTrie4.Get ['c','a','t','s'] 0 = some 3 ∧
    exampleTrie4.Get ['c','a','r'] 0 = some 2 := by
  decide

/-- C6: removing the empty key from a non-empty trie: a Value-Node root
with children is demoted to a plain node carrying the same children; a
childless Value-Node root yields the empty trie; a non-Value-Node root
is returned as an unchanged clone. -/
theorem remove_empty_key (cs cs2 : List (Char × TrieNode)) (ty v : Nat)
    (h : cs.isEmpty = false) :
    ((⟨some (.value cs ty v)⟩ : Trie).Remove [] = ⟨some (.plain cs)⟩) ∧
    ((⟨some (.value [] ty v)⟩ : Trie).Remove [] = ⟨none⟩) ∧
    ((⟨some (.plain cs2)⟩ : Trie).Remove [] = ⟨some ((TrieNode.plain cs2).Clone)⟩) := by
  refine ⟨?_, rfl, rfl⟩
  simp [Trie.Remove, TrieNode.is_value_node_, TrieNode.children_, h]

/-- C6 witness: the three empty-key removal cases at concrete tries. -/
theorem remove_empty_key_witness :
    ((⟨some (.value [('a', .value [] 0 5)] 0 1)⟩ : Trie).Remove [] =
      ⟨some (.plain [('a', .value [] 0 5)])⟩) ∧
    ((⟨some (.value [] 0 1)⟩ : Trie).Remove [] = ⟨none⟩) ∧
    ((⟨some (.plain [])⟩ : Trie).Remove [] = ⟨some ((TrieNode.plain []).Clone)⟩) :=
  remove_empty_key [('a', .value [] 0 5)] [] 0 1 rfl

/-- C7: `Put` with the empty key builds a Value-Node root carrying the
new value and the old root's children mapping (an empty mapping when
the trie was empty), so every other key reads as before; the spec's two
concrete edge cases hold. -/
theorem put_empty_key (root : TrieNode) (ty v : Nat) (k2 : List Char) (ty2 : Nat)
    (k3 : List Char) (ty3 : Nat) (h : k2 ≠ []) :
    ((⟨some root⟩ : Trie).Put [] ty v = ⟨some (.value root.children_ ty v)⟩) ∧
    ((⟨none⟩ : Trie).Put [] ty v = ⟨some (.value [] ty v)⟩) ∧
    (((⟨some root⟩ : Trie).Put [] ty v).Get k2 ty2 = (⟨some root⟩ : Trie).Get k2 ty2) ∧
    (((⟨none⟩ : Trie).Put [] 0 1).Get [] 0 = some 1) ∧
    ((⟨none⟩ : Trie).Get k3 ty3 = none) := by
  refine ⟨rfl, rfl, ?_, rfl, rfl⟩
  obtain ⟨c, k2t, rfl⟩ : ∃ c k2t, k2 = c :: k2t := by
    cases k2 with
    | nil => exact absurd rfl h
    | cons c k2t => exact ⟨c, k2t, rfl⟩
  simp only [Trie.Put]
  rw [get_some, get_some, lookupVal_cons, lookupVal_cons]
  rfl

/-- C7 witness: the empty-key `Put` conclusions at a concrete root and
concrete other keys. -/
theorem put_empty_key_witness :
    ((⟨some (.plain [('b', .value [] 0 7)])⟩ : Trie).Put [] 0 1 =
      ⟨some (.value (TrieNode.plain [('b', .value [] 0 7)]).children_ 0 1)⟩) ∧
    ((⟨none⟩ : Trie).Put [] 0 1 = ⟨some (.value [] 0 1)⟩) ∧
    (((⟨some (.plain [('b', .value [] 0 7)])⟩ : Trie).Put [] 0 1).Get ['b'] 0 =
      (⟨some (.plain [('b', .value [] 0 7)])⟩ : Trie).Get ['b'] 0) ∧
    (((⟨none⟩ : Trie).Put [] 0 1).Get [] 0 = some 1) ∧
    ((⟨none⟩ : Trie).Get ['x'] 0 = none) :=
  put_empty_key (.plain [('b', .value [] 0 7)]) 0 1 ['b'] 0 ['x'] 0 (by decide)

theorem prune_check_good (node2 n2 : TrieNode)
    (h : (if node2.children_.isEmpty && !node2.is_value_node_ then none else some node2) =
      some n2) : n2.good = true := by
  split at h
  · exact Option.noConfusion h
  · next hcond =>
    rw [Option.some.injEq] at h
    subst h
    rw [TrieNode.good]
    revert hcond
    cases node2.children_.isEmpty <;> cases node2.is_value_node_ <;> simp

theorem removeNode_good_or_eq (rest : List Char) (ch : Char) (node n2 : TrieNode)
    (h : removeNode node ch rest = some n2) : n2.good = true ∨ n2 = node := by
  rw [removeNode] at h
  cases hf : mapFind node.children_ ch with
  | none =>
    rw [hf] at h
    rw [Option.some.injEq] at h
    exact Or.inr h.symm
  | some child =>
    rw [hf] at h
    cases rest with
    | nil =>
      by_cases hv : child.is_value_node_ = false
      · simp only [if_pos hv] at h
        rw [Option.some.injEq] at h
        exact Or.inr h.symm
      · simp only [if_neg hv] at h
        exact Or.inl (prune_check_good _ _ h)
    | cons next rest2 =>
      simp only [hf, clone_eq] at h
      cases hrec : removeNode child next rest2 with
      | some nc =>
        simp only [hrec] at h
        exact Or.inl (prune_check_good _ _ h)
      | none =>
        simp only [hrec] at h
        exact Or.inl (prune_check_good _ _ h)

theorem putNode_good (rest : List Char) (ch : Char) (node : TrieNode) (ty v : Nat) :
    (putNode node ch rest ty v).good = true := by
  cases rest with
  | nil =>
    cases hf : mapFind node.children_ ch <;>
      simp [putNode, hf, TrieNode.good, mapSet_ne_nil]
  | cons next rest2 =>
    cases hf : mapFind node.children_ ch <;>
      simp [putNode, hf, TrieNode.good, mapSet_ne_nil]

/-- C10: on every trie reachable from the empty trie by `Put` and
`Remove`, the root is never a childless non-value node; in particular
removing the empty key's value from a childless Value-Node root yields
the empty trie rather than a dangling root. -/
theorem root_never_dangling (t : Trie) (ty v : Nat) (h : Reachable t) :
    t.rootGood = true ∧ (⟨some (.value [] ty v)⟩ : Trie).Remove [] = ⟨none⟩ := by
  refine ⟨?_, rfl⟩
  induction h with
  | empty => rfl
  | put t2 k ty2 v2 hr ih =>
    obtain ⟨root⟩ := t2
    cases k with
    | nil =>
      cases root <;>
        simp [Trie.Put, Trie.rootGood, TrieNode.good, TrieNode.is_value_node_]
    | cons ch rest =>
      cases root with
      | none => simpa [Trie.Put, Trie.rootGood] using putNode_good rest ch (.plain []) ty2 v2
      | some r => simpa [Trie.Put, Trie.rootGood] using putNode_good rest ch r ty2 v2
  | remove t2 k hr ih =>
    obtain ⟨root⟩ := t2
    cases root with
    | none => rfl
    | some r =>
      cases k with
      | nil =>
        by_cases hv : r.is_value_node_ = true
        · by_cases he : r.children_.isEmpty = true
          · simp [Trie.Remove, hv, he, Trie.rootGood]
          · rw [Bool.not_eq_true] at he
            simp [Trie.Remove, hv, he, Trie.rootGood, TrieNode.good]
        · rw [Bool.not_eq_true] at hv
          simp only [Trie.Remove, hv, Bool.false_eq_true, if_false, clone_eq]
          simpa [Trie.rootGood] using ih
      | cons ch rest =>
        cases hrem : removeNode r ch rest with
        | none => simp [Trie.Remove, hrem, Trie.rootGood]
        | some n2 =>
          rcases removeNode_good_or_eq rest ch r n2 hrem with hg | he
          · simp [Trie.Remove, hrem, Trie.rootGood, hg]
          · subst he
            simp only [Trie.Remove, clone_eq, hrem, Trie.rootGood]
            simpa [Trie.rootGood] using ih

/-- C10 witness: the trie obtained by one `Put` on the empty trie has a
good root, and the childless value-root case of `Remove("")` returns
the empty trie. -/
theorem root_never_dangling_witness :
    (Trie.Put ⟨none⟩ ['a'] 0 1).rootGood = true ∧
    (⟨some (.value [] 0 1)⟩ : Trie).Remove [] = ⟨none⟩ :=
  root_never_dangling (Trie.Put ⟨none⟩ ['a'] 0 1) 0 1
    (Reachable.put ⟨none⟩ ['a'] 0 1 Reachable.empty)

theorem prune_check_eq (node2 n2 : TrieNode)
    (h : (if node2.children_.isEmpty && !node2.is_value_node_ then none else some node2) =
      some n2) : n2 = node2 := by
  split at h
  · exact Option.noConfusion h
  · rw [Option.some.injEq] at h
    exact h.symm

theorem goodBelow_eq (n : TrieNode) : goodBelow n = goodChildren n.children_ := by
  cases n <;> rw [goodBelow] <;> rfl

theorem goodChildren_cons (c : Char) (n : TrieNode) (rest : List (Char × TrieNode)) :
    goodChildren ((c, n) :: rest) = ((n.good && goodBelow n) && goodChildren rest) := by
  rw [goodChildren]

theorem goodChildren_find (cs : List (Char × TrieNode)) (ch : Char) (c : TrieNode)
    (hf : mapFind cs ch = some c) (hg : goodChildren cs = true) :
    c.good = true ∧ goodBelow c = true := by
  induction cs with
  | nil => simp [mapFind] at hf
  | cons p rest ih =>
    obtain ⟨c0, n⟩ := p
    rw [goodChildren_cons] at hg
    simp only [Bool.and_eq_true] at hg
    by_cases h0 : c0 = ch
    · simp only [mapFind, if_pos h0, Option.some.injEq] at hf
      subst hf
      exact ⟨hg.1.1, hg.1.2⟩
    · simp only [mapFind, if_neg h0] at hf
      exact ih hf hg.2

theorem goodChildren_mapSet (cs : List (Char × TrieNode)) (ch : Char) (c : TrieNode)
    (hg : goodChildren cs = true) (h1 : c.good = true) (h2 : goodBelow c = true) :
    goodChildren (mapSet cs ch c) = true := by
  induction cs with
  | nil => simp [mapSet, goodChildren_cons, h1, h2]; rw [goodChildren]
  | cons p rest ih =>
    obtain ⟨c0, n⟩ := p
    rw [goodChildren_cons] at hg
    simp only [Bool.and_eq_true] at hg
    by_cases h0 : c0 = ch
    · simp only [mapSet, if_pos h0, goodChildren_cons]
      simp [h1, h2, hg.2]
    · simp only [mapSet, if_neg h0, goodChildren_cons]
      simp [hg.1.1, hg.1.2, ih hg.2]

theorem goodChildren_mapErase (cs : List (Char × TrieNode)) (ch : Char)
    (hg : goodChildren cs = true) : goodChildren (mapErase cs ch) = true := by
  induction cs with
  | nil => exact hg
  | cons p rest ih =>
    obtain ⟨c0, n⟩ := p
    rw [goodChildren_cons] at hg
    simp only [Bool.and_eq_true] at hg
    by_cases h0 : c0 = ch
    · simp only [mapErase, if_pos h0]
      exact hg.2
    · simp only [mapErase, if_neg h0, goodChildren_cons]
      simp [hg.1.1, hg.1.2, ih hg.2]

theorem removeNode_goodBelow (rest : List Char) (ch : Char) (node n2 : TrieNode)
    (hg : goodBelow node = true) (h : removeNode node ch rest = some n2) :
    goodBelow n2 = true := by
  induction rest generalizing ch node n2 with
  | nil =>
    rw [removeNode] at h
    cases hf : mapFind node.children_ ch with
    | none =>
      simp only [hf, Option.some.injEq] at h
      exact h ▸ hg
    | some child =>
      obtain ⟨hcg, hcb⟩ := goodChildren_find node.children_ ch child hf (goodBelow_eq node ▸ hg)
      by_cases hv : child.is_value_node_ = false
      · simp only [hf, if_pos hv, Option.some.injEq] at h
        exact h ▸ hg
      · simp only [hf, if_neg hv] at h
        have he := prune_check_eq _ _ h
        subst he
        rw [goodBelow_eq, children_withChildren]
        by_cases hemp : child.children_.isEmpty = true
        · simp only [if_pos hemp]
          exact goodChildren_mapErase _ _ (goodBelow_eq node ▸ hg)
        · simp only [if_neg hemp]
          refine goodChildren_mapSet _ _ _ (goodBelow_eq node ▸ hg) ?_ ?_
          · rw [TrieNode.good, children_plain]
            rw [Bool.not_eq_true] at hemp
            simp [hemp]
          · rw [goodBelow_eq, children_plain]
            exact goodBelow_eq child ▸ hcb
  | cons next rest2 ih =>
    rw [removeNode] at h
    cases hf : mapFind node.children_ ch with
    | none =>
      simp only [hf, Option.some.injEq] at h
      exact h ▸ hg
    | some child =>
      obtain ⟨hcg, hcb⟩ := goodChildren_find node.children_ ch child hf (goodBelow_eq node ▸ hg)
      simp only [hf, clone_eq] at h
      cases hrec : removeNode child next rest2 with
      | some nc =>
        simp only [hrec] at h
        have he := prune_check_eq _ _ h
        subst he
        rw [goodBelow_eq, children_withChildren]
        have hncb : goodBelow nc = true := ih next child nc hcb hrec
        have hncg : nc.good = true := by
          rcases removeNode_good_or_eq rest2 next child nc hrec with hgd | heq
          · exact hgd
          · exact heq ▸ hcg
        exact goodChildren_mapSet _ _ _ (goodBelow_eq node ▸ hg) hncg hncb
      | none =>
        simp only [hrec] at h
        have he := prune_check_eq _ _ h
        subst he
        rw [goodBelow_eq, children_withChildren]
        exact goodChildren_mapErase _ _ (goodBelow_eq node ▸ hg)

/-- C3 counterexample: the trie whose root is a childless plain node
satisfies the section-3 structural invariant (which exempts the root),
yet after `Remove` of the absent key "a" the resulting trie still has
that childless non-value node as its (reachable) root. -/
theorem remove_pruning_counterexample :
    (⟨some (.plain [])⟩ : Trie).invariant3 = true ∧
    ((⟨some (.plain [])⟩ : Trie).Remove ['a']).root_ = some (.plain []) ∧
    (TrieNode.plain ([] : List (Char × TrieNode))).children_.isEmpty = true ∧
    (TrieNode.plain ([] : List (Char × TrieNode))).is_value_node_ = false := by
  exact ⟨by decide, rfl, rfl, rfl⟩

/-- C3 (amended): after every `Remove` on a trie satisfying the
section-3 structural invariant, the result satisfies it again — no
reachable node other than the root is simultaneously childless and
non-value; pruning propagates upward through every level of the
searched path. -/
theorem remove_preserves_invariant (t : Trie) (k : List Char)
    (h : t.invariant3 = true) : (t.Remove k).invariant3 = true := by
  obtain ⟨root⟩ := t
  cases root with
  | none => rfl
  | some r =>
    replace h : goodBelow r = true := h
    cases k with
    | nil =>
      by_cases hv : r.is_value_node_ = true
      · by_cases he : r.children_.isEmpty = true
        · simp [Trie.Remove, hv, he, Trie.invariant3]
        · rw [Bool.not_eq_true] at he
          simp only [Trie.Remove, hv, if_true, he, Bool.false_eq_true, if_false]
          show goodBelow (TrieNode.plain r.children_) = true
          rw [goodBelow_eq, children_plain]
          exact goodBelow_eq r ▸ h
      · rw [Bool.not_eq_true] at hv
        simp only [Trie.Remove, hv, Bool.false_eq_true, if_false, clone_eq]
        exact h
    | cons ch rest =>
      cases hrem : removeNode r ch rest with
      | none => simp [Trie.Remove, hrem, Trie.invariant3]
      | some n2 =>
        simp only [Trie.Remove, clone_eq, hrem, Trie.invariant3]
        exact removeNode_goodBelow rest ch r n2 h hrem

/-- C3 witness: removing the only key of a one-key trie preserves the
structural invariant. -/
theorem remove_preserves_invariant_witness :
    ((⟨some (.plain [('a', .value [] 0 1)])⟩ : Trie).Remove ['a']).invariant3 = true := by
  exact remove_preserves_invariant ⟨some (.plain [('a', .value [] 0 1)])⟩ ['a'] (by decide)

theorem withChildren_self (n : TrieNode) : n.withChildren n.children_ = n := by
  cases n <;> rfl

theorem castValue_nonvalue (n : TrieNode) (ty : Nat) (h : n.is_value_node_ = false) :
    castValue n ty = none := by
  cases n with
  | plain cs => rfl
  | value cs ty2 v => simp at h

theorem removeNode_noop (rest : List Char) (ch : Char) (node : TrieNode)
    (h : ∀ m, getNode node (ch :: rest) = some m → m.is_value_node_ = false) :
    removeNode node ch rest = some node := by
  induction rest generalizing ch node with
  | nil =>
    rw [removeNode]
    cases hf : mapFind node.children_ ch with
    | none => simp [hf]
    | some child =>
      have hv : child.is_value_node_ = false := h child (by simp [getNode, hf])
      simp only [hf, if_pos hv]
  | cons next rest2 ih =>
    rw [removeNode]
    cases hf : mapFind node.children_ ch with
    | none => simp [hf]
    | some child =>
      have hrec : removeNode child next rest2 = some child := by
        apply ih
        intro m hm
        apply h
        simp only [getNode, hf]
        simp only [getNode] at hm
        exact hm
      simp only [hf, clone_eq, hrec]
      rw [mapSet_self_eq node.children_ ch child hf, withChildren_self]
      rw [mapFind_isSome_nonempty node.children_ ch child hf]
      simp

/-- C8: removing a key that holds no stored value (the key may be
absent, or its path may end at a non-value node) yields a trie with an
identical observable key/value set: every key, at every type tag, reads
the same as before. -/
theorem noop_removal (t : Trie) (k : List Char) (k2 : List Char) (ty2 : Nat)
    (h : t.hasValueAt k = false) : (t.Remove k).Get k2 ty2 = t.Get k2 ty2 := by
  obtain ⟨root⟩ := t
  cases root with
  | none => rfl
  | some r =>
    cases k with
    | nil =>
      replace h : r.is_value_node_ = false := h
      simp only [Trie.Remove, h, Bool.false_eq_true, if_false, clone_eq]
    | cons ch rest =>
      have hrem : removeNode r ch rest = some r := by
        apply removeNode_noop
        intro m hm
        replace h : (match getNode r (ch :: rest) with
          | none => false
          | some n => n.is_value_node_) = false := h
        rw [hm] at h
        exact h
      simp only [Trie.Remove, clone_eq, hrem]

/-- C8 witness: removing "ca" — whose node exists but holds no value —
from the example trie leaves the lookup of "cat" unchanged. -/
theorem noop_removal_witness :
    (exampleTrie3.Remove ['c','a']).Get ['c','a','t'] 0 =
      exampleTrie3.Get ['c','a','t'] 0 :=
  noop_removal exampleTrie3 ['c','a'] ['c','a','t'] 0 (by decide)

theorem WF_eq (n : TrieNode) : WF n = WFChildren n.children_ := by
  cases n <;> rw [WF] <;> rfl

theorem WFChildren_cons (c : Char) (n : TrieNode) (rest : List (Char × TrieNode)) :
    WFChildren ((c, n) :: rest) = ((!hasKey rest c && WF n) && WFChildren rest) := by
  rw [WFChildren]

theorem WFChildren_find (cs : List (Char × TrieNode)) (ch : Char) (c : TrieNode)
    (hf : mapFind cs ch = some c) (hw : WFChildren cs = true) : WF c = true := by
  induction cs with
  | nil => simp [mapFind] at hf
  | cons p rest ih =>
    obtain ⟨c0, n⟩ := p
    rw [WFChildren_cons] at hw
    simp only [Bool.and_eq_true] at hw
    by_cases h0 : c0 = ch
    · simp only [mapFind, if_pos h0, Option.some.injEq] at hf
      exact hf ▸ hw.1.2
    · simp only [mapFind, if_neg h0] at hf
      exact ih hf hw.2

theorem mapFind_mapErase_self (cs : List (Char × TrieNode)) (ch : Char)
    (hw : WFChildren cs = true) : mapFind (mapErase cs ch) ch = none := by
  induction cs with
  | nil => rfl
  | cons p rest ih =>
    obtain ⟨c0, n⟩ := p
    rw [WFChildren_cons] at hw
    simp only [Bool.and_eq_true] at hw
    by_cases h0 : c0 = ch
    · simp only [mapErase, if_pos h0]
      subst h0
      have := hw.1.1
      rw [hasKey] at this
      cases hfd : mapFind rest c0 with
      | none => rfl
      | some x => rw [hfd] at this; simp at this
    · simp only [mapErase, if_neg h0, mapFind, if_neg h0]
      exact ih hw.2

theorem removeNode_get_none (rest : List Char) (ch : Char) (node n2 : TrieNode) (ty : Nat)
    (hw : WF node = true) (h : removeNode node ch rest = some n2) :
    lookupVal n2 (ch :: rest) ty = none := by
  induction rest generalizing ch node n2 with
  | nil =>
    rw [removeNode] at h
    cases hf : mapFind node.children_ ch with
    | none =>
      simp only [hf, Option.some.injEq] at h
      subst h
      simp [lookupVal_cons, hf]
    | some child =>
      by_cases hv : child.is_value_node_ = false
      · simp only [hf, if_pos hv, Option.some.injEq] at h
        subst h
        rw [lookupVal_cons]
        simp only [hf, lookupVal_nil]
        exact castValue_nonvalue child ty hv
      · simp only [hf, if_neg hv] at h
        have he := prune_check_eq _ _ h
        subst he
        by_cases hemp : child.children_.isEmpty = true
        · rw [lookupVal_cons, children_withChildren, if_pos hemp]
          rw [mapFind_mapErase_self node.children_ ch (WF_eq node ▸ hw)]
        · rw [lookupVal_cons, children_withChildren, if_neg hemp]
          simp only [mapFind_mapSet_self, lookupVal_nil]
          rfl
  | cons next rest2 ih =>
    rw [removeNode] at h
    cases hf : mapFind node.children_ ch with
    | none =>
      simp only [hf, Option.some.injEq] at h
      subst h
      simp [lookupVal_cons, hf]
    | some child =>
      have hwc : WF child = true := WFChildren_find node.children_ ch child hf (WF_eq node ▸ hw)
      simp only [hf, clone_eq] at h
      cases hrec : removeNode child next rest2 with
      | some nc =>
        simp only [hrec] at h
        have he := prune_check_eq _ _ h
        subst he
        rw [lookupVal_cons, children_withChildren, mapFind_mapSet_self]
        exact ih next child nc hwc hrec
      | none =>
        simp only [hrec] at h
        have he := prune_check_eq _ _ h
        subst he
        rw [lookupVal_cons, children_withChildren]
        rw [mapFind_mapErase_self node.children_ ch (WF_eq node ▸ hw)]

/-- C9: on every well-formed trie (children maps bind each character
once, as `std::map` guarantees), after `Remove(k)` a `Get` of `k` at
any type tag returns "not found" — covering the empty key, the
dropped-leaf case and the demoted-to-non-value case alike. -/
theorem remove_get_none (t : Trie) (k : List Char) (ty : Nat)
    (hw : t.WFT = true) : (t.Remove k).Get k ty = none := by
  obtain ⟨root⟩ := t
  cases root with
  | none => rfl
  | some r =>
    replace hw : WF r = true := hw
    cases k with
    | nil =>
      by_cases hv : r.is_value_node_ = true
      · by_cases he : r.children_.isEmpty = true
        · simp [Trie.Remove, hv, he]
        · rw [Bool.not_eq_true] at he
          simp only [Trie.Remove, hv, if_true, he, Bool.false_eq_true, if_false]
          rfl
      · rw [Bool.not_eq_true] at hv
        simp only [Trie.Remove, hv, Bool.false_eq_true, if_false, clone_eq]
        rw [get_some, lookupVal_nil]
        exact castValue_nonvalue r ty hv
    | cons ch rest =>
      cases hrem : removeNode r ch rest with
      | none => simp [Trie.Remove, hrem]
      | some n2 =>
        simp only [Trie.Remove, clone_eq, hrem, get_some]
        exact removeNode_get_none rest ch r n2 ty hw hrem

/-- C9 witness: after removing "cat" from the example trie, "cat" reads
back "not found". -/
theorem remove_get_none_witness :
    (exampleTrie3.Remove ['c','a','t']).Get ['c','a','t'] 0 = none :=
  remove_get_none exampleTrie3 ['c','a','t'] 0 (by decide)

end BusTub
